import Mathlib

/-!
# Verification of the MAcc exit-survey analysis script

Shallow embedding of `scripts/analyze_exit_survey.py`:
the cell-reference decoder (`col_to_index`), the shared-string table
loader, the worksheet row parser, the table assembler (`parse_xlsx`),
course-name derivation (`parse_course_name`), numeric cleaning
(`clean_numeric`), score normalization/aggregation and the final
ranking sort (`main`).

Python `dict`s (insertion-ordered, later assignment overwrites in
place) are modelled as association lists with an in-place-overwriting
insert.  Python exceptions aborting the parse are modelled with
`Except Unit`.  Python floats are modelled by `ℚ`: every arithmetic
operation performed on scores by the script — `((9 - r) / 8) * 100`
and `((v - 1) / 4) * 100` with small integer inputs — is exact in
binary floating point (power-of-two denominators, small magnitudes),
so the rational model agrees with the float computation on these
values.
-/

namespace ExitSurvey

/-! ## Python string primitives

The script leans on Python's `str.strip`, `str.split`, `str.startswith`
and string comparison.  They are modelled here directly on character
lists (structural recursion, so every witness evaluates inside the
kernel). -/

/-- The whitespace set stripped by Python `str.strip()` (the ASCII
part, which covers the survey data). -/
def isPySpace (c : Char) : Bool :=
  c.isWhitespace || c = '\x0b' || c = '\x0c'

/-- Python `s.strip()`. -/
def pyStrip (s : String) : String :=
  String.mk (((s.data.dropWhile isPySpace).reverse.dropWhile isPySpace).reverse)

/-- First occurrence of `sep` in `l`, scanning left to right:
`some (before, after)` splits around it. -/
def splitFirst (sep : List Char) : List Char → Option (List Char × List Char)
  | [] => none
  | c :: cs =>
      if sep.isPrefixOf (c :: cs) then some ([], (c :: cs).drop sep.length)
      else
        match splitFirst sep cs with
        | none => none
        | some (pre, post) => some (c :: pre, post)

/-- Fuelled worker for `pySplit` (structural recursion on the fuel;
`fuel = l.length` always suffices for a nonempty separator because
every round consumes at least one character). -/
def pySplitF (sep : List Char) : Nat → List Char → List (List Char)
  | 0, l => [l]
  | fuel + 1, l =>
      match splitFirst sep l with
      | none => [l]
      | some (pre, post) => pre :: pySplitF sep fuel post

/-- Python `s.split(sep)` for a nonempty separator: all parts between
non-overlapping occurrences, empties kept, `[s]` when absent. -/
def pySplit (sep s : String) : List String :=
  (pySplitF sep.data s.data.length s.data).map String.mk

/-- Python `s.startswith(p)`. -/
def pyStarts (p s : String) : Bool :=
  p.data.isPrefixOf s.data

/-- Python string `<`: code-point lexicographic comparison. -/
def pyStrLt (a b : String) : Prop :=
  List.lt a.data b.data

instance (a b : String) : Decidable (pyStrLt a b) :=
  List.hasDecidableLt a.data b.data

/-! ## Cell Reference Decoder (`col_to_index`, lines 19-23)

`total = 0; for char in col_ref: total = total * 26 + (ord(char) - 64);
return total - 1`.  Python integers are unbounded and signed, hence `Int`. -/

def colAux (total : Int) : List Char → Int
  | [] => total
  | c :: cs => colAux (total * 26 + ((c.toNat : Int) - 64)) cs

def col_to_index (colRef : String) : Int :=
  colAux 0 colRef.data - 1

/-! ## Shared-String Table Loader (lines 28-33)

An `si` element is modelled by the list of its nested `a:t` text nodes
in document order; a node's text may be absent (`node.text` is `None`),
which the code replaces by `""` via `(node.text or "")`. -/

abbrev SharedItem := List (Option String)

def siText (si : SharedItem) : String :=
  String.join (si.map (fun t => t.getD ""))

def loadSharedStrings (items : List SharedItem) : List String :=
  items.map siText

/-! ## Worksheet Row Parser (lines 37-60) -/

/-- A worksheet cell element:
* `r`: the `r` attribute (`cell.attrib.get("r", "")` — `""` when absent);
* `t`: the `t` attribute (`cell.attrib.get("t")` — `none` when absent);
* `isNode`: the `a:is/a:t` child (`none` if the node is absent; node text
  itself may be `None`);
* `vNode`: the `a:v` child, likewise. -/
structure Cell where
  r : String
  t : Option String
  isNode : Option (Option String)
  vNode : Option (Option String)

/-- The maximal leading run of uppercase letters of a reference:
what `re.match(r"([A-Z]+)", ref)` captures (empty ⟺ no match). -/
def upperRun : List Char → List Char
  | [] => []
  | c :: cs => if 'A' ≤ c ∧ c ≤ 'Z' then c :: upperRun cs else []

def refLetters (s : String) : String :=
  String.mk (upperRun s.data)

/-- Value of a Python decimal digit run `\d(_?\d)*` (single underscores
allowed between digits, as `int` accepts), given the value of the
digits consumed so far; `none` on any other shape. -/
def digitsVal (acc : Nat) : List Char → Option Nat
  | [] => some acc
  | '_' :: c :: cs =>
      if c.isDigit then digitsVal (acc * 10 + (c.toNat - 48)) cs else none
  | c :: cs =>
      if c.isDigit then digitsVal (acc * 10 + (c.toNat - 48)) cs else none

/-- Python `int(s)` on a string: optional surrounding whitespace,
optional sign, then a digit run; raises (here: `none`) otherwise. -/
def pyInt (s : String) : Option Int :=
  match (pyStrip s).data with
  | [] => none
  | '-' :: rest =>
      match rest with
      | [] => none
      | c :: cs =>
          if c.isDigit then (digitsVal (c.toNat - 48) cs).map (fun n => -(n : Int))
          else none
  | '+' :: rest =>
      match rest with
      | [] => none
      | c :: cs =>
          if c.isDigit then (digitsVal (c.toNat - 48) cs).map (fun n => (n : Int))
          else none
  | c :: cs =>
      if c.isDigit then (digitsVal (c.toNat - 48) cs).map (fun n => (n : Int))
      else none

/-- Python list indexing `xs[i]`: negative `i` counts from the end;
out of range raises `IndexError` (here: `none`). -/
def pyIndex (xs : List String) (i : Int) : Option String :=
  if 0 ≤ i then xs[i.toNat]?
  else if i.natAbs ≤ xs.length then xs[xs.length - i.natAbs]?
  else none

/-- Line 57: `value = shared_strings[int(raw)] if cell_type == "s" else raw`.
For a shared-string cell, `int(raw)` may raise `ValueError` and the
indexing may raise `IndexError`; either aborts the parse. -/
def resolveValue (pool : List String) (cellType : Option String) (raw : String) :
    Except Unit String :=
  if cellType = some "s" then
    match pyInt raw with
    | none => .error ()
    | some i =>
        match pyIndex pool i with
        | none => .error ()
        | some s => .ok s
  else .ok raw

/-- Lines 41-59: resolve one cell to `(column index, trimmed value)`;
`ok none` means the cell is skipped (its reference has no leading
uppercase letters).  `col_to_index` is only applied to a nonempty
uppercase run, where its result is nonnegative, so `.toNat` is exact. -/
def resolveCell (pool : List String) (cell : Cell) : Except Unit (Option (Nat × String)) :=
  let letters := refLetters cell.r
  if letters = "" then .ok none
  else
    let colIdx := (col_to_index letters).toNat
    let valE : Except Unit String :=
      if cell.t = some "inlineStr" then
        .ok (match cell.isNode with
             | none => ""
             | some txt => txt.getD "")
      else
        match cell.vNode with
        | none => .ok ""
        | some none => .ok ""
        | some (some raw) => resolveValue pool cell.t raw
    match valE with
    | .error e => .error e
    | .ok v => .ok (some (colIdx, pyStrip v))

/-- A Raw Row: Python dict from column index to trimmed value. -/
abbrev RawRow := List (Nat × String)

/-- Python dict assignment `d[k] = v`: overwrite in place, else append. -/
def dictInsert (k : Nat) (v : String) : RawRow → RawRow
  | [] => [(k, v)]
  | (k', v') :: rest =>
      if k' = k then (k, v) :: rest else (k', v') :: dictInsert k v rest

/-- Python `row.get(i)` (as `Option`). -/
def rowGet (row : RawRow) (i : Nat) : Option String :=
  match row with
  | [] => none
  | (k, v) :: rest => if k = i then some v else rowGet rest i

/-- Lines 39-59: one worksheet row element to its sparse mapping. -/
def parseRow (pool : List String) (cells : List Cell) : Except Unit RawRow :=
  cells.foldlM
    (fun acc cell => do
      match ← resolveCell pool cell with
      | none => pure acc
      | some (k, v) => pure (dictInsert k v acc))
    []

/-- Lines 37-60: all row elements, in document order. -/
def parseSheet (pool : List String) (sheet : List (List Cell)) :
    Except Unit (List RawRow) :=
  sheet.mapM (parseRow pool)

/-! ## Table Assembler (lines 62-81) -/

/-- `max(row.keys(), default=0)`. -/
def rowMaxKey (row : RawRow) : Nat :=
  (row.map Prod.fst).foldl max 0

/-- Line 65: `max_col = max(max(row.keys(), default=0) for row in rows)`
(the generator is nonempty because the length check passed). -/
def maxColOf (rows : List RawRow) : Nat :=
  (rows.map rowMaxKey).foldl max 0

/-- The synthetic name for a header-less column, `f"COL_{idx}"`. -/
def synthName (i : Nat) : String :=
  "COL_" ++ toString i

abbrev StrDict := List (String × String)

/-- Python dict assignment for string keys. -/
def dictInsertS (k v : String) : StrDict → StrDict
  | [] => [(k, v)]
  | (k', v') :: rest =>
      if k' = k then (k, v) :: rest else (k', v') :: dictInsertS k v rest

/-- Python `d.get(k)` (as `Option`). -/
def dictGetS (d : StrDict) (k : String) : Option String :=
  match d with
  | [] => none
  | (k', v) :: rest => if k' = k then some v else dictGetS rest k

/-- Lines 71-73: the Column Schema names, index `0..max_col` inclusive. -/
def columnsOf (headerRow : RawRow) (maxCol : Nat) : List String :=
  (List.range (maxCol + 1)).map (fun i => (rowGet headerRow i).getD (synthName i))

/-- Line 74: `questions[col_name] = question_row.get(idx, "")`,
iterated over the same index range. -/
def questionsOf (headerRow questionRow : RawRow) (maxCol : Nat) : StrDict :=
  (List.range (maxCol + 1)).foldl
    (fun d i =>
      dictInsertS ((rowGet headerRow i).getD (synthName i))
        ((rowGet questionRow i).getD "") d)
    []

/-- A Record: Python dict from column name to value. -/
abbrev Record := StrDict

/-- Line 78: `{col_name: row.get(idx, "") for idx, col_name in enumerate(columns)}`. -/
def buildRecord (columns : List String) (row : RawRow) : Record :=
  columns.enum.foldl
    (fun d p => dictInsertS p.2 ((rowGet row p.1).getD "") d)
    []

/-- Lines 62-81: the Table Assembler.  `rows[0]` and `rows[1]` exist
because the length check passed, so `getD` is exact. -/
def assemble (rows : List RawRow) :
    Except Unit (List String × List Record × StrDict) :=
  if rows.length < 4 then .error ()
  else
    let maxCol := maxColOf rows
    let headerRow := rows.getD 0 []
    let questionRow := rows.getD 1 []
    let columns := columnsOf headerRow maxCol
    let records := (rows.drop 3).map (buildRecord columns)
    .ok (columns, records, questionsOf headerRow questionRow maxCol)

/-- `parse_xlsx` after XML extraction: rows, then assembly. -/
def parse_xlsx (pool : List String) (sheet : List (List Cell)) :
    Except Unit (List String × List Record × StrDict) := do
  let rows ← parseSheet pool sheet
  assemble rows

/-! ## Course names and numeric cleaning (lines 84-96) -/

/-- Lines 84-87.  Python `" - " in t` holds iff `t.split(" - ")` has at
least two parts, and `split[-1]` is the last part; `x or y` on strings
is `y` when `x` is empty. -/
def parse_course_name (questionText : String) : String :=
  let parts := pySplit " - " questionText
  if 2 ≤ parts.length then pyStrip (parts.getLastD "")
  else if pyStrip questionText = "" then "Unknown Course"
  else pyStrip questionText

/-- Value of a nonempty run of decimal digits. -/
def digitsToNat (cs : List Char) : Nat :=
  cs.foldl (fun a c => a * 10 + (c.toNat - 48)) 0

/-- Lines 90-96: strip; empty → `None`; `re.fullmatch(r"\d+(\.0+)?", v)`
then `int(float(v))`, which equals the value of the digit part (the
matched values are plain integers; exact in float up to `2^53`, far
beyond the 1-8/1-5 ranges used downstream). -/
def clean_numeric (value : String) : Option Nat :=
  let v := pyStrip value
  if v = "" then none
  else
    match pySplit "." v with
    | [d] =>
        if d.data ≠ [] ∧ d.data.all Char.isDigit then some (digitsToNat d.data)
        else none
    | [d, f] =>
        if d.data ≠ [] ∧ d.data.all Char.isDigit ∧ f.data ≠ [] ∧
            f.data.all (fun c => c = '0') then
          some (digitsToNat d.data)
        else none
    | _ => none

/-! ## Normalization & Aggregation (`main`, lines 139-209)

Only completed records contribute; core fields (`Q35_*`, ranks 1-8) map
to `((9 - r) / 8) * 100` and elective fields (ratings 1-5) map to
`((v - 1) / 4) * 100`; scores pool per course; courses sort by score
descending, then count descending, then name ascending. -/

/-- Line 140. -/
def electiveFieldNames : List String :=
  ["Q76_1", "Q77_2", "Q78_3", "Q83_4", "Q82_5", "Q80_6", "Q81_9", "Q79_7"]

/-- Line 139: dict iteration is over keys in insertion order. -/
def coreFieldNames (questions : StrDict) : List String :=
  (questions.map Prod.fst).filter (fun n => pyStarts "Q35_" n)

/-- Python `row.get(field, "")`. -/
def recGet (rec : Record) (f : String) : String :=
  (dictGetS rec f).getD ""

/-- Line 146: `row.get("Finished", "").strip() in {"1", "true", "TRUE", "True"}`. -/
def isFinished (rec : Record) : Bool :=
  let v := pyStrip (recGet rec "Finished")
  v = "1" ∨ v = "true" ∨ v = "TRUE" ∨ v = "True"

/-- Lines 151-158: the course/score contribution of one core field of
one record, `none` when the `continue` is taken. -/
def coreContrib (questions : StrDict) (rec : Record) (f : String) :
    Option (String × ℚ) :=
  match clean_numeric (recGet rec f) with
  | none => none
  | some rank =>
      if rank < 1 ∨ 8 < rank then none
      else
        some (parse_course_name ((dictGetS questions f).getD ""),
          ((9 - (rank : ℚ)) / 8) * 100)

/-- Lines 169-176: likewise for one elective field. -/
def electContrib (questions : StrDict) (rec : Record) (f : String) :
    Option (String × ℚ) :=
  match clean_numeric (recGet rec f) with
  | none => none
  | some rating =>
      if rating < 1 ∨ 5 < rating then none
      else
        some (parse_course_name ((dictGetS questions f).getD ""),
          (((rating : ℚ) - 1) / 4) * 100)

/-- The Course Score Accumulator: `defaultdict` from course to its
"core" and "elective" score lists, in first-touch order. -/
abbrev Scores := List (String × List ℚ × List ℚ)

/-- `course_scores[course]["core"].append(s)` (resp. `"elective"`);
a `defaultdict` entry appears at first touch. -/
def addScore (isCore : Bool) (course : String) (s : ℚ) : Scores → Scores
  | [] => [(course, if isCore then ([s], []) else ([], [s]))]
  | (c, core, elec) :: rest =>
      if c = course then
        (c, if isCore then (core ++ [s], elec) else (core, elec ++ [s])) :: rest
      else (c, core, elec) :: addScore isCore course s rest

/-- Lines 145-185: one record's pass over the core then elective fields
(skipped entirely unless finished). -/
def processRecord (coreFields electFields : List String) (questions : StrDict)
    (acc : Scores) (rec : Record) : Scores :=
  if isFinished rec then
    let acc1 := coreFields.foldl
      (fun a f =>
        match coreContrib questions rec f with
        | none => a
        | some (c, s) => addScore true c s a)
      acc
    electFields.foldl
      (fun a f =>
        match electContrib questions rec f with
        | none => a
        | some (c, s) => addScore false c s a)
      acc1
  else acc

/-- The full accumulation loop over all records. -/
def courseScores (questions : StrDict) (recs : List Record) : Scores :=
  recs.foldl
    (processRecord (coreFieldNames questions) electiveFieldNames questions)
    []

/-- One row of the final ranking table (before rank assignment). -/
structure RankRow where
  course : String
  overall : ℚ
  n : Nat
deriving DecidableEq, Repr

/-- `statistics.fmean`: sum divided by length (exact model in `ℚ`). -/
def fmean (xs : List ℚ) : ℚ :=
  xs.sum / (xs.length : ℚ)

/-- Lines 187-204: one ranking row per course with a nonempty pooled
score list; `overall_score` is the mean of core + elective pooled. -/
def rankingRowsOf (scores : Scores) : List RankRow :=
  scores.filterMap
    (fun e =>
      let allVals := e.2.1 ++ e.2.2
      if allVals = [] then none
      else some ⟨e.1, fmean allVals, allVals.length⟩)

/-- Line 206: the sort key `(-overall_score, -num_responses, course)`,
as a boolean total preorder (`a` before-or-equal `b`). -/
def rankKeyLE (a b : RankRow) : Bool :=
  decide (b.overall < a.overall ∨
    (b.overall = a.overall ∧
      (b.n < a.n ∨ (b.n = a.n ∧ (pyStrLt a.course b.course ∨ a.course = b.course)))))

/-- Line 206: `ranking_rows.sort(key=...)`.  The key order is total and
antisymmetric on rows with distinct course names (and course names are
distinct: they are keys of one dict), so any correct sort computes the
Python result. -/
def sortRanking (rows : List RankRow) : List RankRow :=
  rows.mergeSort rankKeyLE

/-- Lines 187-209: the final ranked table with 1-based ranks attached. -/
def rankedTable (questions : StrDict) (recs : List Record) : List (Nat × RankRow) :=
  (sortRanking (rankingRowsOf (courseScores questions recs))).enum.map
    (fun p => (p.1 + 1, p.2))

/-! ## Lemmas about the cell-reference decoder -/

theorem colAux_shift (l : List Char) : ∀ a : Int,
    colAux a l = a * 26 ^ l.length + colAux 0 l := by
  induction l with
  | nil => intro a; simp [colAux]
  | cons c cs ih =>
    intro a
    simp only [colAux, List.length_cons]
    rw [ih (a * 26 + ((c.toNat : Int) - 64)),
      ih (0 * 26 + ((c.toNat : Int) - 64))]
    ring

theorem colAux_cons (c : Char) (cs : List Char) :
    colAux 0 (c :: cs) =
      ((c.toNat : Int) - 64) * 26 ^ cs.length + colAux 0 cs := by
  show colAux (0 * 26 + ((c.toNat : Int) - 64)) cs = _
  rw [colAux_shift]
  ring

theorem upper_digit_bounds {c : Char} (h : 'A' ≤ c ∧ c ≤ 'Z') :
    1 ≤ (c.toNat : Int) - 64 ∧ (c.toNat : Int) - 64 ≤ 26 := by
  obtain ⟨h1, h2⟩ := h
  simp only [Char.le_def, UInt32.le_def, BitVec.le_def] at h1 h2
  have e1 : (65 : Nat) ≤ c.toNat := h1
  have e2 : c.toNat ≤ 90 := h2
  omega

theorem colAux_lower (l : List Char) (h : ∀ c ∈ l, 'A' ≤ c ∧ c ≤ 'Z') :
    (26 : Int) ^ l.length ≤ 25 * colAux 0 l + 1 := by
  induction l with
  | nil => simp [colAux]
  | cons c cs ih =>
    have hd := (upper_digit_bounds (h c (List.mem_cons_self c cs))).1
    have IH := ih (fun x hx => h x (List.mem_cons_of_mem c hx))
    rw [colAux_cons]
    have hp : (0 : Int) ≤ 26 ^ cs.length := by positivity
    have hstep : 1 * (26 : Int) ^ cs.length ≤
        ((c.toNat : Int) - 64) * 26 ^ cs.length :=
      mul_le_mul_of_nonneg_right hd hp
    have hpow : (26 : Int) ^ (c :: cs).length = 26 * 26 ^ cs.length := by
      simp [List.length_cons]; ring
    rw [hpow]
    linarith

theorem colAux_upper (l : List Char) (h : ∀ c ∈ l, 'A' ≤ c ∧ c ≤ 'Z') :
    25 * colAux 0 l + 26 ≤ (26 : Int) ^ (l.length + 1) := by
  induction l with
  | nil => simp [colAux]
  | cons c cs ih =>
    have hd := (upper_digit_bounds (h c (List.mem_cons_self c cs))).2
    have IH := ih (fun x hx => h x (List.mem_cons_of_mem c hx))
    rw [colAux_cons]
    have hp : (0 : Int) ≤ 26 ^ cs.length := by positivity
    have hstep : ((c.toNat : Int) - 64) * 26 ^ cs.length ≤
        26 * (26 : Int) ^ cs.length :=
      mul_le_mul_of_nonneg_right hd hp
    have hpow : (26 : Int) ^ ((c :: cs).length + 1) =
        26 * (26 * 26 ^ cs.length) := by
      simp [List.length_cons]; ring
    have hpow2 : (26 : Int) ^ (cs.length + 1) = 26 * 26 ^ cs.length := by ring
    rw [hpow]
    rw [hpow2] at IH
    linarith

theorem colAux_len_mono (l1 l2 : List Char)
    (h1 : ∀ c ∈ l1, 'A' ≤ c ∧ c ≤ 'Z') (h2 : ∀ c ∈ l2, 'A' ≤ c ∧ c ≤ 'Z')
    (hlen : l1.length < l2.length) : colAux 0 l1 < colAux 0 l2 := by
  have u1 := colAux_upper l1 h1
  have lo := colAux_lower l2 h2
  have hmid : (26 : Int) ^ (l1.length + 1) ≤ 26 ^ l2.length :=
    pow_le_pow_right₀ (by norm_num) hlen
  linarith

theorem colAux_lex_mono (l1 : List Char) : ∀ (l2 : List Char),
    l1.length = l2.length →
    (∀ c ∈ l1, 'A' ≤ c ∧ c ≤ 'Z') → (∀ c ∈ l2, 'A' ≤ c ∧ c ≤ 'Z') →
    List.lt l1 l2 → colAux 0 l1 < colAux 0 l2 := by
  induction l1 with
  | nil =>
    intro l2 hlen _ _ hlt
    cases hlt with
    | nil b bs => simp at hlen
  | cons a as ih =>
    intro l2 hlen h1 h2 hlt
    cases hlt with
    | head as2 bs hab =>
      rename_i b
      have hlen' : as.length = bs.length := by
        simpa [List.length_cons] using hlen
      have hdigit : a.toNat < b.toNat := by
        simp only [Char.lt_def, UInt32.lt_def, BitVec.lt_def] at hab
        exact hab
      have hda := upper_digit_bounds (h1 a (List.mem_cons_self a as))
      have hdb := upper_digit_bounds (h2 b (List.mem_cons_self b bs))
      have hd : ((a.toNat : Int) - 64) + 1 ≤ (b.toNat : Int) - 64 := by omega
      rw [colAux_cons, colAux_cons, ← hlen']
      have hp : (0 : Int) ≤ 26 ^ as.length := by positivity
      have hstep : (((a.toNat : Int) - 64) + 1) * 26 ^ as.length ≤
          ((b.toNat : Int) - 64) * 26 ^ as.length :=
        mul_le_mul_of_nonneg_right hd hp
      have u1 := colAux_upper as (fun x hx => h1 x (List.mem_cons_of_mem a hx))
      have lo := colAux_lower bs (fun x hx => h2 x (List.mem_cons_of_mem b hx))
      rw [← hlen'] at lo
      have hpow : (26 : Int) ^ (as.length + 1) = 26 * 26 ^ as.length := by ring
      rw [hpow] at u1
      nlinarith
    | tail hab hba htl =>
      rename_i b bs
      have hb : a = b := le_antisymm (le_of_not_lt hba) (le_of_not_lt hab)
      have hlen' : as.length = bs.length := by
        simpa [List.length_cons] using hlen
      have IH := ih bs hlen'
        (fun x hx => h1 x (List.mem_cons_of_mem a hx))
        (fun x hx => h2 x (List.mem_cons_of_mem b hx)) htl
      rw [colAux_cons, colAux_cons, ← hlen', hb]
      linarith

/-- C4: the cell-reference decoder, computed by left-to-right
accumulation `total = total * 26 + (ord - 64)` minus one at the end,
maps "A" to 0, "Z" to 25, "AA" to 26, is zero-based (never negative on
a nonempty uppercase reference), and is strictly monotone with respect
to reference length and then code-point-lexicographic order. -/
theorem col_to_index_spec :
    col_to_index "A" = 0 ∧ col_to_index "Z" = 25 ∧ col_to_index "AA" = 26 ∧
    (∀ a : String, a.data ≠ [] → (∀ c ∈ a.data, 'A' ≤ c ∧ c ≤ 'Z') →
      0 ≤ col_to_index a) ∧
    (∀ a b : String,
      a.data ≠ [] → b.data ≠ [] →
      (∀ c ∈ a.data, 'A' ≤ c ∧ c ≤ 'Z') → (∀ c ∈ b.data, 'A' ≤ c ∧ c ≤ 'Z') →
      (a.length < b.length ∨ (a.length = b.length ∧ pyStrLt a b)) →
      col_to_index a < col_to_index b) := by
  refine ⟨by decide, by decide, by decide, ?_, ?_⟩
  · intro a hne hup
    have hlow := colAux_lower a.data hup
    have hpos : 1 ≤ a.data.length := List.length_pos.mpr hne
    have h26 : (26 : Int) ^ 1 ≤ 26 ^ a.data.length :=
      pow_le_pow_right₀ (by norm_num) hpos
    simp only [col_to_index]
    have : (26 : Int) ^ 1 = 26 := by norm_num
    linarith
  · intro a b hna hnb ha hb hord
    have key : colAux 0 a.data < colAux 0 b.data := by
      rcases hord with hlen | ⟨hlen, hlex⟩
      · exact colAux_len_mono a.data b.data ha hb hlen
      · exact colAux_lex_mono a.data b.data hlen ha hb hlex
    simp only [col_to_index]
    linarith

theorem col_to_index_spec_witness :
    col_to_index "Z" < col_to_index "AA" ∧ (0 : Int) ≤ col_to_index "Z" :=
  ⟨col_to_index_spec.2.2.2.2 "Z" "AA" (by decide) (by decide) (by decide)
      (by decide) (Or.inl (by decide)),
    col_to_index_spec.2.2.2.1 "Z" (by decide) (by decide)⟩

/-- C5: the Table Assembler aborts with a structural error exactly when
fewer than 4 rows are present, and otherwise succeeds. -/
theorem assemble_structural_check (rows : List RawRow) :
    (rows.length < 4 → assemble rows = .error ()) ∧
    (4 ≤ rows.length → ∃ out, assemble rows = .ok out) := by
  constructor
  · intro h
    unfold assemble
    rw [if_pos h]
  · intro h
    exact ⟨_, by unfold assemble; rw [if_neg (by omega)]⟩

theorem assemble_structural_check_witness :
    assemble [[], [], []] = .error () ∧
    ∃ out, assemble [[], [], [], []] = .ok out :=
  ⟨(assemble_structural_check [[], [], []]).1 (by decide),
    (assemble_structural_check [[], [], [], []]).2 (by decide)⟩

/-- C8: course-name derivation: with the separator present the course
name is the trimmed last split segment, without it the whole trimmed
text, and the sentinel "Unknown Course" when that trimmed text is
empty ("contains the separator" is Python `" - " in t`, equivalently
the split has at least two parts). -/
theorem parse_course_name_spec (q : String) :
    (2 ≤ (pySplit " - " q).length →
      parse_course_name q = pyStrip ((pySplit " - " q).getLastD "")) ∧
    ((pySplit " - " q).length < 2 → pyStrip q ≠ "" →
      parse_course_name q = pyStrip q) ∧
    ((pySplit " - " q).length < 2 → pyStrip q = "" →
      parse_course_name q = "Unknown Course") ∧
    parse_course_name "Some Prefix - Tax Law" = "Tax Law" ∧
    parse_course_name "  Tax Law  " = "Tax Law" ∧
    parse_course_name "   " = "Unknown Course" := by
  refine ⟨?_, ?_, ?_, by decide, by decide, by decide⟩
  · intro h
    unfold parse_course_name
    rw [if_pos h]
  · intro h1 h2
    unfold parse_course_name
    rw [if_neg (by omega), if_neg h2]
  · intro h1 h2
    unfold parse_course_name
    rw [if_neg (by omega), if_pos h2]

theorem parse_course_name_spec_witness :
    parse_course_name "Some Prefix - Tax Law" =
      pyStrip ((pySplit " - " "Some Prefix - Tax Law").getLastD "") ∧
    parse_course_name "  Tax Law  " = pyStrip "  Tax Law  " :=
  ⟨(parse_course_name_spec "Some Prefix - Tax Law").1 (by decide),
    (parse_course_name_spec "  Tax Law  ").2.1 (by decide) (by decide)⟩

/-! ## Lemmas about shared strings and error propagation -/

/-- C3: the loaded pool has one entry per string item, in document
order, each the concatenation of the item's text runs; and a
shared-string cell whose literal value parses as `i` with
`0 ≤ i < N` resolves to exactly that entry. -/
theorem shared_strings_round_trip (items : List SharedItem) :
    (loadSharedStrings items).length = items.length ∧
    (∀ i, i < items.length →
      (loadSharedStrings items)[i]? = some (siText (items.getD i []))) ∧
    (∀ i, i < items.length → ∀ raw, pyInt raw = some (i : Int) →
      resolveValue (loadSharedStrings items) (some "s") raw =
        .ok (siText (items.getD i []))) := by
  have hget : ∀ i, i < items.length →
      (loadSharedStrings items)[i]? = some (siText (items.getD i [])) := by
    intro i h
    simp [loadSharedStrings, List.getElem?_map, List.getElem?_eq_getElem h,
      List.getD_eq_getElem?_getD]
  refine ⟨by simp [loadSharedStrings], hget, ?_⟩
  intro i h raw hraw
  simp only [resolveValue, if_pos rfl, hraw]
  have hidx : pyIndex (loadSharedStrings items) (i : Int) =
      some (siText (items.getD i [])) := by
    unfold pyIndex
    rw [if_pos (Int.natCast_nonneg i), Int.toNat_natCast, hget i h]
  rw [hidx]
  simp

theorem shared_strings_round_trip_witness :
    (loadSharedStrings [[some "a", none, some "b"], [some "c"]])[1]? =
      some (siText ([[some "a", none, some "b"], [some "c"]].getD 1 [])) ∧
    resolveValue (loadSharedStrings [[some "a", none, some "b"], [some "c"]])
      (some "s") "1" =
      .ok (siText ([[some "a", none, some "b"], [some "c"]].getD 1 [])) :=
  ⟨(shared_strings_round_trip [[some "a", none, some "b"], [some "c"]]).2.1 1
      (by decide),
    (shared_strings_round_trip [[some "a", none, some "b"], [some "c"]]).2.2 1
      (by decide) "1" (by decide)⟩

/-- Every element of a successfully folded list was processed
successfully with some accumulator value. -/
theorem foldlM_except_ok {α β : Type} {f : β → α → Except Unit β} :
    ∀ (l : List α) (acc r : β), l.foldlM f acc = .ok r →
      ∀ x ∈ l, ∃ a b, f a x = .ok b := by
  intro l
  induction l with
  | nil => intro acc r _ x hx; cases hx
  | cons y ys ih =>
    intro acc r h x hx
    rw [List.foldlM_cons] at h
    cases hf : f acc y with
    | error e => rw [hf] at h; simp [Bind.bind, Except.bind] at h
    | ok b =>
      rw [hf] at h
      simp only [Bind.bind, Except.bind] at h
      rcases List.mem_cons.mp hx with rfl | hx'
      · exact ⟨acc, b, hf⟩
      · exact ih b r h x hx'

/-- Every element of a successfully `mapM`-ed list maps successfully,
pointwise and in order. -/
theorem mapM_except_ok {α β : Type} {f : α → Except Unit β} :
    ∀ (l : List α) (res : List β), l.mapM f = .ok res →
      res.length = l.length ∧
      ∀ i, i < l.length → ∃ x y, l[i]? = some x ∧ res[i]? = some y ∧
        f x = .ok y := by
  intro l
  induction l with
  | nil =>
    intro res h
    simp only [List.mapM_nil] at h
    cases h
    exact ⟨rfl, fun i hi => absurd hi (by simp)⟩
  | cons a as ih =>
    intro res h
    rw [List.mapM_cons] at h
    cases hf : f a with
    | error e => rw [hf] at h; simp [Bind.bind, Except.bind] at h
    | ok b =>
      rw [hf] at h
      simp only [Bind.bind, Except.bind] at h
      cases hm : as.mapM f with
      | error e => rw [hm] at h; simp at h
      | ok bs =>
        rw [hm] at h
        simp only [Pure.pure, Except.pure, Except.ok.injEq] at h
        subst h
        obtain ⟨hlen, hpt⟩ := ih bs hm
        refine ⟨by simp [hlen], ?_⟩
        intro i hi
        cases i with
        | zero => exact ⟨a, b, by simp, by simp, hf⟩
        | succ j =>
          obtain ⟨x, y, hx, hy, hxy⟩ := hpt j (by simpa using hi)
          exact ⟨x, y, by simpa using hx, by simpa using hy, hxy⟩

/-- C10: shared-string resolution parses the cell value as an integer
and indexes the pool with no bounds check: a non-integer value or an
index at or beyond the pool size (in particular any shared-string cell
against an empty pool) aborts the parse with an exception — a
successful parse admits no erroring cell — while a negative index `-k`
with `k ≤ N` silently resolves to the k-th entry from the end. -/
theorem shared_index_unchecked (pool : List String) :
    (∀ raw, pyInt raw = none → resolveValue pool (some "s") raw = .error ()) ∧
    (∀ raw (i : Int), pyInt raw = some i → (pool.length : Int) ≤ i →
      resolveValue pool (some "s") raw = .error ()) ∧
    (∀ raw, resolveValue [] (some "s") raw = .error ()) ∧
    (∀ raw (k : Nat), 1 ≤ k → k ≤ pool.length → pyInt raw = some (-(k : Int)) →
      ∃ s, pool[pool.length - k]? = some s ∧
        resolveValue pool (some "s") raw = .ok s) ∧
    (∀ cell raw, refLetters cell.r ≠ "" → cell.t = some "s" →
      cell.vNode = some (some raw) →
      resolveValue pool (some "s") raw = .error () →
      resolveCell pool cell = .error ()) ∧
    (∀ cells rawRow, parseRow pool cells = .ok rawRow →
      ∀ cell ∈ cells, resolveCell pool cell ≠ .error ()) ∧
    (∀ sheet rows, parseSheet pool sheet = .ok rows →
      ∀ cells ∈ sheet, ∀ cell ∈ cells, resolveCell pool cell ≠ .error ()) := by
  have hrow : ∀ cells rawRow, parseRow pool cells = .ok rawRow →
      ∀ cell ∈ cells, resolveCell pool cell ≠ .error () := by
    intro cells rawRow h cell hc herr
    unfold parseRow at h
    obtain ⟨a, b, hf⟩ := foldlM_except_ok cells [] rawRow h cell hc
    rw [herr] at hf
    simp [Bind.bind, Except.bind] at hf
  refine ⟨?_, ?_, ?_, ?_, ?_, hrow, ?_⟩
  · intro raw h
    simp [resolveValue, h]
  · intro raw i hraw hge
    have hidx : pyIndex pool i = none := by
      unfold pyIndex
      rw [if_pos (by omega), List.getElem?_eq_none (by omega)]
    simp [resolveValue, hraw, hidx]
  · intro raw
    cases h : pyInt raw with
    | none => simp [resolveValue, h]
    | some i =>
      have hidx : pyIndex [] i = none := by simp [pyIndex]
      simp [resolveValue, h, hidx]
  · intro raw k hk1 hkN hraw
    have hlt : pool.length - k < pool.length := by omega
    refine ⟨pool[pool.length - k], List.getElem?_eq_getElem hlt, ?_⟩
    have hidx : pyIndex pool (-(k : Int)) = some pool[pool.length - k] := by
      unfold pyIndex
      rw [if_neg (by omega), if_pos (by omega : (-(k : Int)).natAbs ≤ pool.length),
        show (-(k : Int)).natAbs = k from by omega,
        List.getElem?_eq_getElem hlt]
    simp [resolveValue, hraw, hidx]
  · intro cell raw hletters ht hv herr
    unfold resolveCell
    rw [if_neg hletters]
    have hts : ¬ (cell.t = some "inlineStr") := by rw [ht]; decide
    simp only [if_neg hts, hv]
    rw [← ht] at herr
    rw [herr]
  · intro sheet rows h cells hcs cell hc
    unfold parseSheet at h
    obtain ⟨_, hpt⟩ := mapM_except_ok sheet rows h
    obtain ⟨i, hilt, hig⟩ := List.getElem_of_mem hcs
    obtain ⟨x, y, hx, _, hxy⟩ := hpt i hilt
    rw [List.getElem?_eq_getElem hilt, hig] at hx
    cases hx
    exact hrow cells y hxy cell hc

theorem shared_index_unchecked_witness :
    resolveValue ["x", "y"] (some "s") "zz" = .error () ∧
    resolveValue ["x", "y"] (some "s") "2" = .error () ∧
    resolveValue [] (some "s") "0" = .error () ∧
    (∃ s, (["x", "y"] : List String)[(["x", "y"] : List String).length - 1]? =
        some s ∧ resolveValue ["x", "y"] (some "s") "-1" = .ok s) :=
  ⟨(shared_index_unchecked ["x", "y"]).1 "zz" (by decide),
    (shared_index_unchecked ["x", "y"]).2.1 "2" 2 (by decide) (by decide),
    (shared_index_unchecked []).2.2.1 "0",
    (shared_index_unchecked ["x", "y"]).2.2.2.1 "-1" 1 (by decide) (by decide)
      (by decide)⟩

/-- C2: the Worksheet Row Parser: a cell whose reference has no leading
uppercase letters is skipped; an inline-string cell takes its inline
text node's text; a shared-string cell takes the pool entry indexed by
its value; any other cell takes its value node's text verbatim; a
missing value node yields the empty string; every stored value is
trimmed; and a row with no cells yields an empty mapping that still
occupies its position in the row sequence. -/
theorem row_parser_spec (pool : List String) :
    (∀ cell : Cell, refLetters cell.r = "" → resolveCell pool cell = .ok none) ∧
    (∀ cell : Cell, refLetters cell.r ≠ "" → cell.t = some "inlineStr" →
      resolveCell pool cell =
        .ok (some ((col_to_index (refLetters cell.r)).toNat,
          pyStrip ((cell.isNode.map (fun t => t.getD "")).getD "")))) ∧
    (∀ cell : Cell, refLetters cell.r ≠ "" → cell.t = some "s" →
      ∀ raw i s, cell.vNode = some (some raw) → pyInt raw = some i →
        pyIndex pool i = some s →
        resolveCell pool cell =
          .ok (some ((col_to_index (refLetters cell.r)).toNat, pyStrip s))) ∧
    (∀ cell : Cell, refLetters cell.r ≠ "" → cell.t ≠ some "inlineStr" →
      cell.t ≠ some "s" → ∀ raw, cell.vNode = some (some raw) →
      resolveCell pool cell =
        .ok (some ((col_to_index (refLetters cell.r)).toNat, pyStrip raw))) ∧
    (∀ cell : Cell, refLetters cell.r ≠ "" → cell.t ≠ some "inlineStr" →
      (cell.vNode = none ∨ cell.vNode = some none) →
      resolveCell pool cell =
        .ok (some ((col_to_index (refLetters cell.r)).toNat, ""))) ∧
    (∀ cell k v, resolveCell pool cell = .ok (some (k, v)) →
      ∃ w, v = pyStrip w) ∧
    parseRow pool [] = .ok [] ∧
    (∀ sheet rows, parseSheet pool sheet = .ok rows →
      rows.length = sheet.length ∧
      ∀ i, i < sheet.length → ∃ cells row, sheet[i]? = some cells ∧
        rows[i]? = some row ∧ parseRow pool cells = .ok row) := by
  refine ⟨?_, ?_, ?_, ?_, ?_, ?_, rfl, ?_⟩
  · intro cell h
    simp only [resolveCell, if_pos h]
  · intro cell hne ht
    simp only [resolveCell, if_neg hne, if_pos ht]
    cases hn : cell.isNode with
    | none => simp [hn]
    | some txt => simp [hn]
  · intro cell hne ht raw i s hv hraw hidx
    have hts : ¬ (cell.t = some "inlineStr") := by rw [ht]; decide
    simp only [resolveCell, if_neg hne, if_neg hts, hv, ht, resolveValue,
      if_pos rfl, hraw, hidx]
    simp
  · intro cell hne hti hts raw hv
    simp only [resolveCell, if_neg hne, if_neg hti, hv, resolveValue,
      if_neg hts]
  · intro cell hne hti hv
    have hps : pyStrip "" = "" := rfl
    rcases hv with hv | hv <;>
      simp only [resolveCell, if_neg hne, if_neg hti, hv, hps]
  · intro cell k v h
    simp only [resolveCell] at h
    by_cases href : refLetters cell.r = ""
    · rw [if_pos href] at h
      simp at h
    · rw [if_neg href] at h
      split at h
      · simp at h
      · rename_i w hw
        simp only [Except.ok.injEq, Option.some.injEq, Prod.mk.injEq] at h
        exact ⟨w, h.2.symm⟩
  · intro sheet rows h
    unfold parseSheet at h
    exact mapM_except_ok sheet rows h

theorem row_parser_spec_witness :
    resolveCell ["x", " y "] ⟨"12", none, none, none⟩ = .ok none ∧
    resolveCell ["x", " y "] ⟨"B2", some "inlineStr", some (some " hi "), none⟩ =
      .ok (some ((col_to_index (refLetters "B2")).toNat,
        pyStrip (((some (some " hi ") : Option (Option String)).map
          (fun t => t.getD "")).getD ""))) ∧
    resolveCell ["x", " y "] ⟨"A1", some "s", none, some (some "1")⟩ =
      .ok (some ((col_to_index (refLetters "A1")).toNat, pyStrip " y ")) ∧
    (∀ sheet rows, parseSheet ["x", " y "] sheet = .ok rows →
        rows.length = sheet.length ∧
        ∀ i, i < sheet.length → ∃ cells row, sheet[i]? = some cells ∧
          rows[i]? = some row ∧ parseRow ["x", " y "] cells = .ok row) ∧
    parseRow (["x", " y "] : List String) [] = .ok [] :=
  ⟨(row_parser_spec ["x", " y "]).1 ⟨"12", none, none, none⟩ (by decide),
    (row_parser_spec ["x", " y "]).2.1 ⟨"B2", some "inlineStr",
      some (some " hi "), none⟩ (by decide) rfl,
    (row_parser_spec ["x", " y "]).2.2.1 ⟨"A1", some "s", none,
      some (some "1")⟩ (by decide) rfl "1" 1 " y " rfl (by decide) (by decide),
    (row_parser_spec ["x", " y "]).2.2.2.2.2.2.2,
    (row_parser_spec ["x", " y "]).2.2.2.2.2.2.1⟩

/-! ## Normalization -/

/-- C6: for a finished record, a core field parsing to an integer
`1 ≤ r ≤ 8` contributes `((9 - r) / 8) * 100`, an elective field
parsing to `1 ≤ v ≤ 5` contributes `((v - 1) / 4) * 100`, and any
non-numeric or out-of-range value (e.g. core "9", elective "0") is
silently discarded at the per-field level; an unfinished record
contributes nothing at all. -/
theorem per_field_scoring (questions : StrDict) (rec : Record) (f : String) :
    (∀ r : Nat, clean_numeric (recGet rec f) = some r → 1 ≤ r → r ≤ 8 →
      coreContrib questions rec f =
        some (parse_course_name ((dictGetS questions f).getD ""),
          ((9 - (r : ℚ)) / 8) * 100)) ∧
    (clean_numeric (recGet rec f) = none → coreContrib questions rec f = none) ∧
    (∀ r : Nat, clean_numeric (recGet rec f) = some r → (r < 1 ∨ 8 < r) →
      coreContrib questions rec f = none) ∧
    (∀ v : Nat, clean_numeric (recGet rec f) = some v → 1 ≤ v → v ≤ 5 →
      electContrib questions rec f =
        some (parse_course_name ((dictGetS questions f).getD ""),
          (((v : ℚ) - 1) / 4) * 100)) ∧
    (clean_numeric (recGet rec f) = none → electContrib questions rec f = none) ∧
    (∀ v : Nat, clean_numeric (recGet rec f) = some v → (v < 1 ∨ 5 < v) →
      electContrib questions rec f = none) ∧
    clean_numeric "9" = some 9 ∧ clean_numeric "0" = some 0 ∧
    (∀ cf ef acc, isFinished rec = false →
      processRecord cf ef questions acc rec = acc) := by
  refine ⟨?_, ?_, ?_, ?_, ?_, ?_, by decide, by decide, ?_⟩
  · intro r h h1 h8
    simp [coreContrib, h]
    omega
  · intro h
    simp [coreContrib, h]
  · intro r h hout
    simp [coreContrib, h]
    omega
  · intro v h h1 h5
    simp [electContrib, h]
    omega
  · intro h
    simp [electContrib, h]
  · intro v h hout
    simp [electContrib, h]
    omega
  · intro cf ef acc h
    simp [processRecord, h]

theorem per_field_scoring_witness :
    coreContrib [("Q35_1", "X - C")] [("Q35_1", "3")] "Q35_1" =
      some (parse_course_name ((dictGetS [("Q35_1", "X - C")] "Q35_1").getD ""),
        ((9 - ((3 : Nat) : ℚ)) / 8) * 100) ∧
    coreContrib [("Q35_1", "X - C")] [("Q35_1", "9")] "Q35_1" = none ∧
    electContrib [("Q76_1", "X - C")] [("Q76_1", "0")] "Q76_1" = none ∧
    processRecord ["Q35_1"] electiveFieldNames [("Q35_1", "X - C")] []
      [("Finished", "0"), ("Q35_1", "1")] = [] :=
  ⟨(per_field_scoring [("Q35_1", "X - C")] [("Q35_1", "3")] "Q35_1").1 3
      (by decide) (by decide) (by decide),
    (per_field_scoring [("Q35_1", "X - C")] [("Q35_1", "9")] "Q35_1").2.2.1 9
      (by decide) (by decide),
    (per_field_scoring [("Q76_1", "X - C")] [("Q76_1", "0")] "Q76_1").2.2.2.2.2.1
      0 (by decide) (by decide),
    (per_field_scoring [("Q35_1", "X - C")] [("Finished", "0"), ("Q35_1", "1")]
      "Q35_1").2.2.2.2.2.2.2.2 ["Q35_1"] electiveFieldNames [] (by decide)⟩

/-- C7 (counterexample): a finished record's core field with value "8"
yields the normalized score 12.5, not 0. -/
theorem core_rank8_score_not_zero :
    coreContrib [("Q35_1", "P - CourseA")] [("Finished", "1"), ("Q35_1", "8")]
      "Q35_1" = some ("CourseA", 25 / 2) ∧ (25 / 2 : ℚ) ≠ 0 := by
  constructor
  · have h : clean_numeric
        (recGet [("Finished", "1"), ("Q35_1", "8")] "Q35_1") = some 8 := by
      decide
    have hc : parse_course_name
        ((dictGetS [("Q35_1", "P - CourseA")] "Q35_1").getD "") = "CourseA" := by
      decide
    simp [coreContrib, h, hc]
    norm_num
  · norm_num

/-- C7 (amended): a core ranking field with value "1" yields exactly
100 and one with value "8" yields exactly 12.5 — the formula
`((9 - r) / 8) * 100` has minimum 12.5 at rank 8, not 0. -/
theorem core_rank_extremes (questions : StrDict) (rec : Record) (f : String) :
    (recGet rec f = "1" → coreContrib questions rec f =
      some (parse_course_name ((dictGetS questions f).getD ""), 100)) ∧
    (recGet rec f = "8" → coreContrib questions rec f =
      some (parse_course_name ((dictGetS questions f).getD ""), 25 / 2)) := by
  constructor
  · intro h
    have h1 : clean_numeric (recGet rec f) = some 1 := by rw [h]; decide
    simp [coreContrib, h1]
    norm_num
  · intro h
    have h8 : clean_numeric (recGet rec f) = some 8 := by rw [h]; decide
    simp [coreContrib, h8]
    norm_num

theorem core_rank_extremes_witness :
    coreContrib [("Q35_1", "X - C")] [("Q35_1", "1")] "Q35_1" =
      some (parse_course_name ((dictGetS [("Q35_1", "X - C")] "Q35_1").getD ""),
        100) ∧
    coreContrib [("Q35_1", "X - C")] [("Q35_1", "8")] "Q35_1" =
      some (parse_course_name ((dictGetS [("Q35_1", "X - C")] "Q35_1").getD ""),
        25 / 2) :=
  ⟨(core_rank_extremes [("Q35_1", "X - C")] [("Q35_1", "1")] "Q35_1").1
      (by decide),
    (core_rank_extremes [("Q35_1", "X - C")] [("Q35_1", "8")] "Q35_1").2
      (by decide)⟩

/-! ## Dictionary lemmas for the Table Assembler -/

theorem dictGetS_insert_self (k v : String) (d : StrDict) :
    dictGetS (dictInsertS k v d) k = some v := by
  induction d with
  | nil => simp [dictInsertS, dictGetS]
  | cons p rest ih =>
    rcases p with ⟨k', v'⟩
    by_cases hk : k' = k
    · simp [dictInsertS, hk, dictGetS]
    · simp [dictInsertS, hk, dictGetS, ih]

theorem dictGetS_insert_ne (k v c : String) (d : StrDict) (hne : k ≠ c) :
    dictGetS (dictInsertS k v d) c = dictGetS d c := by
  induction d with
  | nil => simp [dictInsertS, dictGetS, hne]
  | cons p rest ih =>
    rcases p with ⟨k', v'⟩
    by_cases hk : k' = k
    · subst hk
      simp [dictInsertS, dictGetS, hne]
    · simp [dictInsertS, hk, dictGetS, ih]

theorem dictGetS_foldl_insert_of_absent {α : Type} (key val : α → String) :
    ∀ (ps : List α) (d : StrDict) (c : String), (∀ a ∈ ps, key a ≠ c) →
      dictGetS (ps.foldl (fun d a => dictInsertS (key a) (val a) d) d) c =
        dictGetS d c := by
  intro ps
  induction ps with
  | nil => intro d c _; rfl
  | cons p rest ih =>
    intro d c h
    simp only [List.foldl_cons]
    rw [ih _ c (fun a ha => h a (List.mem_cons_of_mem p ha)),
      dictGetS_insert_ne _ _ _ _ (h p (List.mem_cons_self p rest))]

theorem dictGetS_foldl_insert_isSome {α : Type} (key val : α → String) :
    ∀ (ps : List α) (d : StrDict) (c : String),
      ((dictGetS d c).isSome = true ∨ ∃ a ∈ ps, key a = c) →
      (dictGetS (ps.foldl (fun d a => dictInsertS (key a) (val a) d) d)
        c).isSome = true := by
  intro ps
  induction ps with
  | nil =>
    intro d c h
    rcases h with h | ⟨a, ha, _⟩
    · exact h
    · cases ha
  | cons p rest ih =>
    intro d c h
    simp only [List.foldl_cons]
    apply ih
    by_cases hp : key p = c
    · left
      rw [← hp, dictGetS_insert_self]
      rfl
    · rcases h with h | ⟨a, ha, hkey⟩
      · left
        rw [dictGetS_insert_ne _ _ _ _ hp]
        exact h
      · rcases List.mem_cons.mp ha with rfl | ha'
        · exact absurd hkey hp
        · exact Or.inr ⟨a, ha', hkey⟩

theorem dictGetS_foldl_insert_nodup {α : Type} (key val : α → String) :
    ∀ (ps : List α) (d : StrDict) (a : α), (ps.map key).Nodup → a ∈ ps →
      dictGetS (ps.foldl (fun d x => dictInsertS (key x) (val x) d) d)
        (key a) = some (val a) := by
  intro ps
  induction ps with
  | nil => intro d a _ ha; cases ha
  | cons p rest ih =>
    intro d a hnd ha
    simp only [List.map_cons, List.nodup_cons] at hnd
    obtain ⟨hnotin, hnd'⟩ := hnd
    simp only [List.foldl_cons]
    rcases List.mem_cons.mp ha with rfl | ha'
    · rw [dictGetS_foldl_insert_of_absent key val rest _ (key a)
        (fun x hx heq => hnotin (heq ▸ List.mem_map_of_mem key hx))]
      exact dictGetS_insert_self _ _ _
    · exact ih _ a hnd' ha'

/-- C1: for rows of length at least 4 the assembler returns: columns of
length `max_col + 1`, named from row 0 with synthetic fallback names so
every index is named; a question mapping giving each column name row 1's
value at its index; and one Record per row from index 3 on (row 2 never
appears), each containing every declared column, absent cells filled
with the empty string. -/
theorem table_assembler_spec (rows : List RawRow) (h4 : 4 ≤ rows.length) :
    ∃ columns records questions,
      assemble rows = .ok (columns, records, questions) ∧
      columns.length = maxColOf rows + 1 ∧
      (∀ i, i ≤ maxColOf rows →
        columns[i]? = some ((rowGet (rows.getD 0 []) i).getD (synthName i))) ∧
      (columns.Nodup → ∀ i, i ≤ maxColOf rows →
        dictGetS questions (columns.getD i "") =
          some ((rowGet (rows.getD 1 []) i).getD "")) ∧
      records = (rows.drop 3).map (buildRecord columns) ∧
      records.length = rows.length - 3 ∧
      (∀ rec ∈ records, ∀ c ∈ columns, (dictGetS rec c).isSome = true) ∧
      (columns.Nodup → ∀ row (i : Nat), i ≤ maxColOf rows →
        dictGetS (buildRecord columns row) (columns.getD i "") =
          some ((rowGet row i).getD "")) := by
  set maxCol := maxColOf rows with hmax
  set headerRow := rows.getD 0 [] with hhead
  set questionRow := rows.getD 1 [] with hquest
  set columns := columnsOf headerRow maxCol with hcols
  have hok : assemble rows =
      .ok (columns, (rows.drop 3).map (buildRecord columns),
        questionsOf headerRow questionRow maxCol) := by
    unfold assemble
    rw [if_neg (by omega)]
  have hlen : columns.length = maxCol + 1 := by
    simp [hcols, columnsOf]
  have hgetE : ∀ i, i ≤ maxCol →
      columns[i]? = some ((rowGet headerRow i).getD (synthName i)) := by
    intro i hi
    simp [hcols, columnsOf, List.getElem?_range (by omega : i < maxCol + 1)]
  have hgetD : ∀ i, i ≤ maxCol →
      columns.getD i "" = (rowGet headerRow i).getD (synthName i) := by
    intro i hi
    rw [List.getD_eq_getElem?_getD, hgetE i hi]
    rfl
  have hkeys : columns =
      (List.range (maxCol + 1)).map
        (fun i => (rowGet headerRow i).getD (synthName i)) := rfl
  refine ⟨columns, (rows.drop 3).map (buildRecord columns),
    questionsOf headerRow questionRow maxCol, hok, hlen, hgetE, ?_, rfl, ?_,
    ?_, ?_⟩
  · intro hnd i hi
    rw [hgetD i hi]
    exact dictGetS_foldl_insert_nodup
      (fun i => (rowGet headerRow i).getD (synthName i))
      (fun i => (rowGet questionRow i).getD "")
      (List.range (maxCol + 1)) [] i (by rw [← hkeys]; exact hnd)
      (List.mem_range.mpr (by omega))
  · simp [List.length_map, List.length_drop]
  · intro rec hrec c hc
    obtain ⟨row, _, hbr⟩ := List.mem_map.mp hrec
    subst hbr
    obtain ⟨i, hilt, hgi⟩ := List.getElem_of_mem hc
    have hie : i < columns.enum.length := by
      rw [List.enum_eq_enumFrom, List.enumFrom_length]
      exact hilt
    have hmem : (i, c) ∈ columns.enum := by
      have he : columns.enum[i] = (i, c) := by
        simp [List.enum_eq_enumFrom, List.getElem_enumFrom, hgi]
      rw [← he]
      exact List.getElem_mem _
    exact dictGetS_foldl_insert_isSome Prod.snd
      (fun p => (rowGet row p.1).getD "") columns.enum [] c
      (Or.inr ⟨(i, c), hmem, rfl⟩)
  · intro hnd row i hi
    have hilt : i < columns.length := by omega
    have hsnd : columns.enum.map Prod.snd = columns := by
      rw [List.enum_eq_enumFrom]
      exact List.enumFrom_map_snd 0 columns
    have hie : i < columns.enum.length := by
      rw [List.enum_eq_enumFrom, List.enumFrom_length]
      exact hilt
    have hmem : (i, columns[i]) ∈ columns.enum := by
      have he : columns.enum[i] = (i, columns[i]) := by
        simp [List.enum_eq_enumFrom, List.getElem_enumFrom]
      rw [← he]
      exact List.getElem_mem _
    have hkey := dictGetS_foldl_insert_nodup Prod.snd
      (fun p => (rowGet row p.1).getD "") columns.enum [] (i, columns[i])
      (by rw [hsnd]; exact hnd) hmem
    have hgd : columns.getD i "" = columns[i] := by
      rw [List.getD_eq_getElem?_getD, List.getElem?_eq_getElem hilt]
      rfl
    rw [hgd]
    exact hkey

theorem table_assembler_spec_witness :
    ∃ columns records questions,
      assemble [[(0, "H")], [(0, "Q")], [], [(0, "a")], [(0, "b")]] =
        .ok (columns, records, questions) ∧ records.length = 2 := by
  obtain ⟨c, r, q, hok, _, _, _, _, hlen, _⟩ :=
    table_assembler_spec [[(0, "H")], [(0, "Q")], [], [(0, "a")], [(0, "b")]]
      (by decide)
  exact ⟨c, r, q, hok, by rw [hlen]; rfl⟩

/-! ## Order lemmas for the ranking sort -/

theorem pyStrLt_iff_lex (a b : String) :
    pyStrLt a b ↔ List.Lex (· < ·) a.data b.data := by
  unfold pyStrLt
  exact List.lt_iff_lex_lt a.data b.data

theorem pyStrLt_trichotomy (a b : String) :
    pyStrLt a b ∨ a = b ∨ pyStrLt b a := by
  have inst : IsTrichotomous (List Char) (List.Lex (· < ·)) := inferInstance
  rcases @trichotomous_of (List Char) (List.Lex (· < ·)) inst a.data b.data
    with h | h | h
  · exact Or.inl ((pyStrLt_iff_lex a b).mpr h)
  · refine Or.inr (Or.inl ?_)
    cases a
    cases b
    exact congrArg String.mk h
  · exact Or.inr (Or.inr ((pyStrLt_iff_lex b a).mpr h))

theorem pyStrLt_trans {a b c : String} (h1 : pyStrLt a b) (h2 : pyStrLt b c) :
    pyStrLt a c :=
  (pyStrLt_iff_lex a c).mpr (trans_of (List.Lex (· < ·))
    ((pyStrLt_iff_lex a b).mp h1) ((pyStrLt_iff_lex b c).mp h2))

theorem pyStrLt_asymm {a b : String} (h : pyStrLt a b) : ¬ pyStrLt b a :=
  fun h2 => asymm_of (List.Lex (· < ·))
    ((pyStrLt_iff_lex a b).mp h) ((pyStrLt_iff_lex b a).mp h2)

theorem rankKeyLE_total (a b : RankRow) :
    rankKeyLE a b = true ∨ rankKeyLE b a = true := by
  simp only [rankKeyLE, decide_eq_true_eq]
  rcases lt_trichotomy a.overall b.overall with h | h | h
  · right; exact Or.inl h
  · rcases Nat.lt_trichotomy a.n b.n with h2 | h2 | h2
    · right; exact Or.inr ⟨h, Or.inl h2⟩
    · rcases pyStrLt_trichotomy a.course b.course with h3 | h3 | h3
      · left; exact Or.inr ⟨h.symm, Or.inr ⟨h2.symm, Or.inl h3⟩⟩
      · left; exact Or.inr ⟨h.symm, Or.inr ⟨h2.symm, Or.inr h3⟩⟩
      · right; exact Or.inr ⟨h, Or.inr ⟨h2, Or.inl h3⟩⟩
    · left; exact Or.inr ⟨h.symm, Or.inl h2⟩
  · left; exact Or.inl h

theorem rankKeyLE_trans (a b c : RankRow) :
    rankKeyLE a b = true → rankKeyLE b c = true → rankKeyLE a c = true := by
  simp only [rankKeyLE, decide_eq_true_eq]
  intro hab hbc
  rcases hab with h1 | ⟨e1, h1⟩
  · rcases hbc with h2 | ⟨e2, h2⟩
    · exact Or.inl (lt_trans h2 h1)
    · exact Or.inl (e2 ▸ h1)
  · rcases hbc with h2 | ⟨e2, h2⟩
    · exact Or.inl (e1 ▸ h2)
    · refine Or.inr ⟨e2.trans e1, ?_⟩
      rcases h1 with h1 | ⟨f1, h1⟩
      · rcases h2 with h2 | ⟨f2, h2⟩
        · exact Or.inl (Nat.lt_trans h2 h1)
        · exact Or.inl (f2 ▸ h1)
      · rcases h2 with h2 | ⟨f2, h2⟩
        · exact Or.inl (f1 ▸ h2)
        · refine Or.inr ⟨f2.trans f1, ?_⟩
          rcases h1 with h1 | h1
          · rcases h2 with h2 | h2
            · exact Or.inl (pyStrLt_trans h1 h2)
            · exact Or.inl (h2 ▸ h1)
          · rcases h2 with h2 | h2
            · exact Or.inl (h1 ▸ h2)
            · exact Or.inr (h1.trans h2)

theorem rankKeyLE_bool_total (a b : RankRow) :
    (rankKeyLE a b || rankKeyLE b a) = true := by
  rcases rankKeyLE_total a b with h | h <;> simp [h]

/-- C9: the final ranking contains exactly the courses that accumulated
at least one normalized score; each listed course's overall score is
the arithmetic mean of its pooled core and elective scores and its
count is the number of pooled scores; consecutive rows are ordered by
overall score descending, then count descending, then course name
ascending (so ties on score and count put the lexicographically earlier
name first); and ranks 1..k are assigned in that order. -/
theorem ranking_spec (questions : StrDict) (recs : List Record) :
    (∀ c : String,
      (∃ r ∈ sortRanking (rankingRowsOf (courseScores questions recs)),
        r.course = c) ↔
      (∃ e ∈ courseScores questions recs, e.1 = c ∧ e.2.1 ++ e.2.2 ≠ [])) ∧
    (∀ r ∈ sortRanking (rankingRowsOf (courseScores questions recs)),
      ∃ e ∈ courseScores questions recs, e.1 = r.course ∧
        r.overall = fmean (e.2.1 ++ e.2.2) ∧
        r.n = (e.2.1 ++ e.2.2).length) ∧
    (sortRanking (rankingRowsOf (courseScores questions recs))).Pairwise
      (fun a b => b.overall < a.overall ∨
        (b.overall = a.overall ∧ (b.n < a.n ∨ (b.n = a.n ∧
          (pyStrLt a.course b.course ∨ a.course = b.course))))) ∧
    (rankedTable questions recs).map Prod.fst =
      (List.range
        (sortRanking (rankingRowsOf (courseScores questions recs))).length).map
        (fun i => i + 1) := by
  have hperm : ∀ r : RankRow,
      r ∈ sortRanking (rankingRowsOf (courseScores questions recs)) ↔
      r ∈ rankingRowsOf (courseScores questions recs) := by
    intro r
    exact (List.mergeSort_perm (rankingRowsOf (courseScores questions recs))
      rankKeyLE).mem_iff
  have hrr : ∀ r : RankRow, r ∈ rankingRowsOf (courseScores questions recs) ↔
      ∃ e ∈ courseScores questions recs, e.2.1 ++ e.2.2 ≠ [] ∧
        r = ⟨e.1, fmean (e.2.1 ++ e.2.2), (e.2.1 ++ e.2.2).length⟩ := by
    intro r
    unfold rankingRowsOf
    rw [List.mem_filterMap]
    constructor
    · rintro ⟨e, he, hf⟩
      by_cases hne : e.2.1 ++ e.2.2 = []
      · rw [if_pos hne] at hf
        cases hf
      · rw [if_neg hne] at hf
        cases hf
        exact ⟨e, he, hne, rfl⟩
    · rintro ⟨e, he, hne, rfl⟩
      exact ⟨e, he, by rw [if_neg hne]⟩
  refine ⟨?_, ?_, ?_, ?_⟩
  · intro c
    constructor
    · rintro ⟨r, hr, rfl⟩
      obtain ⟨e, he, hne, rfl⟩ := (hrr r).mp ((hperm r).mp hr)
      exact ⟨e, he, rfl, hne⟩
    · rintro ⟨e, he, rfl, hne⟩
      exact ⟨⟨e.1, fmean (e.2.1 ++ e.2.2), (e.2.1 ++ e.2.2).length⟩,
        (hperm _).mpr ((hrr _).mpr ⟨e, he, hne, rfl⟩), rfl⟩
  · intro r hr
    obtain ⟨e, he, hne, rfl⟩ := (hrr r).mp ((hperm r).mp hr)
    exact ⟨e, he, rfl, rfl, rfl⟩
  · have hs := List.sorted_mergeSort
      (fun a b c hab hbc => rankKeyLE_trans a b c hab hbc)
      rankKeyLE_bool_total
      (rankingRowsOf (courseScores questions recs))
    exact hs.imp (fun h => of_decide_eq_true h)
  · unfold rankedTable
    rw [List.map_map]
    have h1 : (Prod.fst ∘ fun p : Nat × RankRow => (p.1 + 1, p.2)) =
        (fun i => i + 1) ∘ Prod.fst := rfl
    rw [h1, ← List.map_map]
    congr 1
    rw [List.enum_eq_enumFrom, List.enumFrom_map_fst, List.range_eq_range']

theorem ranking_spec_witness :
    ∃ r ∈ sortRanking (rankingRowsOf (courseScores [("Q35_1", "P - CourseA")]
      [[("Finished", "1"), ("Q35_1", "1")]])), r.course = "CourseA" := by
  refine ((ranking_spec [("Q35_1", "P - CourseA")]
    [[("Finished", "1"), ("Q35_1", "1")]]).1 "CourseA").mpr
    ⟨(courseScores [("Q35_1", "P - CourseA")]
      [[("Finished", "1"), ("Q35_1", "1")]]).head
        (by decide : courseScores [("Q35_1", "P - CourseA")]
          [[("Finished", "1"), ("Q35_1", "1")]] ≠ []),
      List.head_mem _, ?_, ?_⟩
  · decide
  · decide

end ExitSurvey
